import Mathlib

/-!
Verification of the highlight-extraction pipeline of `processing.py`.

Modelling conventions:
* Python floats are embedded as `ℚ` (the spec describes the arithmetic as
  exact; all constants in play are decimal literals).
* Python strings are Lean `String`s; `str.lower()` is `Char.toLower` mapped
  over the characters (the keywords and all tested text are ASCII);
  `str.split()` (split on whitespace runs, dropping empties) is the token
  counter `countTokensAux`; `kw in text` is contiguous-sublist membership
  (`List.IsInfix`) on the character lists.
* The duration probe, an external collaborator, is passed in as the
  parameter `d` (the code calls `_probe_duration`, which yields one fixed
  value per source file, `0.0` on probe failure).
* The external encoder of `render_clips_with_captions` is passed in as a
  map from clip index to exit code; a raised `RuntimeError` is `Except.error`.
-/

namespace Processing

/-- A parsed SRT entry as produced by `_parse_block`:
`{"start": ..., "end": ..., "text": ...}` (the Python key `end` is the Lean
keyword `end`, rendered here as `stop`). -/
structure Entry where
  start : ℚ
  stop : ℚ
  text : String
deriving DecidableEq

/-- `ClipWindow(start, end, score)` from `processing.py` (field `end`
rendered as `stop`). -/
structure ClipWindow where
  start : ℚ
  stop : ℚ
  score : ℚ
deriving DecidableEq

/-- The fixed keyword list `KEYWORDS` of `processing.py`. -/
def KEYWORDS : List String :=
  ["tip", "secret", "mistake", "common", "best", "worst", "always", "never",
   "how to", "here\x27s", "watch this", "listen", "idea", "hack", "strategy",
   "story", "example", "because", "why", "myth", "truth"]

/-- `text.lower()` as a character list: ASCII lowercasing of the text. -/
def lowerStr (s : String) : List Char := s.data.map Char.toLower

/-- State machine counting maximal runs of non-whitespace characters: the
Boolean records whether the previous character was inside a word.  This is
`len(text.split())` (Python `str.split()` with no argument splits on
whitespace runs and drops empty tokens). -/
def countTokensAux : Bool → List Char → ℕ
  | _, [] => 0
  | inWord, c :: cs =>
    if c.isWhitespace then countTokensAux false cs
    else (if inWord then 0 else 1) + countTokensAux true cs

/-- `len(text.split())`. -/
def wordCount (cs : List Char) : ℕ := countTokensAux false cs

/-- The keyword bonus loop: one point for each keyword `kw` with
`kw in text` (Python substring containment on the lowered text). -/
def keywordHits (t : List Char) : ℕ :=
  (KEYWORDS.filter (fun kw => decide (kw.data <:+: t))).length

/-- The per-entry score computed by the scoring loop of `find_highlights`
(lines 100-112 of `processing.py`): keyword bonus plus the capped
speech-density term. -/
def scoreEntry (e : Entry) : ℚ :=
  let text := lowerStr e.text
  let kscore : ℚ := keywordHits text
  let duration := e.stop - e.start
  let words : ℚ := (max 1 (wordCount text) : ℕ)
  let wps := words / max (1/2) duration
  kscore + min (wps / 3) 1

/-- The sequential-chop fallback loop
`while t < duration and len(windows) < max_clips: append [t, min(t+L,d)]`,
score `0.1`; the fuel argument is the remaining clip budget. -/
def chop (d L : ℚ) : ℕ → ℚ → List ClipWindow
  | 0, _ => []
  | m + 1, t =>
    if t < d then ⟨t, min (t + L) d, 1/10⟩ :: chop d L m (t + L) else []

/-- The candidate-window bounds seeded from one entry (lines 120-127):
center on the midpoint, clamp left to 0, width `L`; if the right edge
passes the duration, slide back to `[max 0 (d-L), d]`. -/
def seedBounds (d L estart estop : ℚ) : ℚ × ℚ :=
  let center := (estart + estop) / 2
  let start := max 0 (center - L / 2)
  let stop := start + L
  if d < stop then (max 0 (d - L), d) else (start, stop)

/-- The aggregate window score (lines 129-133): sum of the scores of every
entry not strictly outside the window. -/
def winScore (scored : List (Entry × ℚ)) (start stop : ℚ) : ℚ :=
  (scored.map (fun p => if p.1.stop < start ∨ stop < p.1.start then 0 else p.2)).sum

/-- One seeded candidate `ClipWindow` (lines 120-134). -/
def seedWindow (scored : List (Entry × ℚ)) (d L : ℚ) (e : Entry) : ClipWindow :=
  let p := seedBounds d L e.start e.stop
  ⟨p.1, p.2, winScore scored p.1 p.2⟩

/-- `_overlap(a, b, frac)`:
`max(0, min(a.end,b.end) - max(a.start,b.start)) >= frac * min(durA, durB)`. -/
def Overlap (a b : ClipWindow) (frac : ℚ) : Prop :=
  frac * min (a.stop - a.start) (b.stop - b.start) ≤
    max 0 (min a.stop b.stop - max a.start b.start)

instance (a b : ClipWindow) (frac : ℚ) : Decidable (Overlap a b frac) :=
  inferInstanceAs (Decidable (_ ≤ _))

/-- The greedy dedup loop (lines 146-151): walk the sorted candidates,
break once `max_clips` are picked, accept a window only when it does not
half-overlap any previously picked window. -/
def pickAux (M : ℕ) : List ClipWindow → List ClipWindow → List ClipWindow
  | picked, [] => picked
  | picked, w :: ws =>
    if M ≤ picked.length then picked
    else if ∀ p ∈ picked, ¬ Overlap w p (1/2) then pickAux M (picked ++ [w]) ws
    else pickAux M picked ws

/-- `windows.sort(key=lambda w: w.score, reverse=True)`: Python `sort` is
stable, so this is a stable merge sort under `score`-descending order. -/
def sortByScore (ws : List ClipWindow) : List ClipWindow :=
  ws.mergeSort (fun a b => decide (b.score ≤ a.score))

/-- The scoring pass (lines 100-112): every entry paired with its score. -/
def scoredOf (entries : List Entry) : List (Entry × ℚ) :=
  entries.map fun e => (e, scoreEntry e)

/-- The seeding loop (lines 116-134): entries scoring below the 0.5
threshold are skipped (`continue`), the rest each yield one candidate. -/
def seedsOf (entries : List Entry) (d L : ℚ) : List ClipWindow :=
  ((scoredOf entries).filter fun p => decide (¬ p.2 < 1/2)).map
    fun p => seedWindow (scoredOf entries) d L p.1

/-- `find_highlights(src, srt, target_len, max_clips)` with the parsed
entries and the probed duration passed in explicitly (the probe returns the
same value at every call site within one run). -/
def find_highlights (entries : List Entry) (d : ℚ) (target_len : ℚ)
    (max_clips : ℕ) : List ClipWindow :=
  if entries = [] then chop d target_len max_clips 0
  else
    let seeds := seedsOf entries d target_len
    let windows := if seeds = [] then chop d target_len max_clips 0 else seeds
    pickAux max_clips [] (sortByScore windows)

/-- Python `f"{n:02d}"`: zero-pad to width two (a sign counts toward the
width, so negative values are returned as plain `toString`). -/
def pad2 (n : ℤ) : String := if 0 ≤ n ∧ n < 10 then "0" ++ toString n else toString n

/-- `to_ass_time` (nested in `_srt_to_ass`, lines 253-258): `H:MM:SS.cc`
with truncated centiseconds.  Python `int(x)` truncates toward zero, which
agrees with `Int.floor` on the nonnegative values this is applied to;
`x // n` and `x % n` are floor division and the matching remainder. -/
def to_ass_time (t : ℚ) : String :=
  let h : ℤ := ⌊t / 3600⌋
  let m : ℤ := ⌊(t - 3600 * ⌊t / 3600⌋) / 60⌋
  let s : ℤ := ⌊t - 60 * ⌊t / 60⌋⌋
  let cs : ℤ := ⌊(t - ⌊t⌋) * 100⌋
  toString h ++ ":" ++ pad2 m ++ ":" ++ pad2 s ++ "." ++ pad2 cs

/-- Python `str.split(sep)` for a one-character separator: every occurrence
splits, empty pieces are kept, `"".split(sep) == [""]`. -/
def splitOnChar (sep : Char) : List Char → List (List Char)
  | [] => [[]]
  | c :: cs =>
    let r := splitOnChar sep cs
    if c = sep then [] :: r
    else
      match r with
      | [] => [[c]]
      | x :: xs => (c :: x) :: xs

/-- Python `int(s)` on a string of decimal digits. -/
def parseDigits (l : List Char) : ℕ := l.foldl (fun acc c => 10 * acc + (c.toNat - 48)) 0

/-- `_srt_time_to_sec` (lines 195-198): `h, m, rest = ts.split(":")`;
`s, ms = rest.split(",")`; the tuple unpacking raises unless the split
yields exactly as many pieces, modelled as `none`. -/
def _srt_time_to_sec (ts : String) : Option ℚ :=
  match splitOnChar ':' ts.data with
  | [h, m, rest] =>
    match splitOnChar ',' rest with
    | [s, ms] =>
      some ((parseDigits h : ℚ) * 3600 + (parseDigits m : ℚ) * 60 +
        (parseDigits s : ℚ) + (parseDigits ms : ℚ) / 1000)
    | _ => none
  | _ => none

/-- One manifest entry of `render_clips_with_captions` (lines 319-326). -/
structure ManifestEntry where
  file : String
  start : ℚ
  stop : ℚ
  score : ℚ
  width : ℕ
  height : ℕ
deriving DecidableEq

/-- Python `round(x, 3)`: round half to even at three decimal places
(modelled exactly on the rational value). -/
def pyRound3 (q : ℚ) : ℚ :=
  let f : ℤ := ⌊q * 1000⌋
  let r := q * 1000 - f
  let n : ℤ :=
    if r < 1/2 then f else if 1/2 < r then f + 1 else if 2 ∣ f then f else f + 1
  (n : ℚ) / 1000

/-- `_aspect_filter` (lines 271-277). -/
def _aspect_filter (aspect : String) : ℕ × ℕ × String :=
  if aspect = "9:16" then
    (1080, 1920, "scale=1080:1920:force_original_aspect_ratio=increase,crop=1080:1920")
  else if aspect = "1:1" then
    (1080, 1080, "scale=1080:1080:force_original_aspect_ratio=increase,crop=1080:1080")
  else
    (1920, 1080, "scale=1920:1080:force_original_aspect_ratio=increase,crop=1920:1080")

/-- The error raised by `run` when a subprocess exits non-zero (line 31);
the Python message also carries the command line and stderr. -/
def runError : String := "Command failed"

/-- The render loop of `render_clips_with_captions` (lines 295-326), with
the external encoder abstracted as a map from the 1-based clip index to the
process exit code.  The returned first component is the list of indices of
the encoder invocations actually performed; `run` raises (`Except.error`)
on the first non-zero exit, which aborts the loop and discards the
manifest accumulated so far. -/
def renderLoop (exitCode : ℕ → ℤ) (w h : ℕ) : ℕ → List ClipWindow →
    List ℕ × Except String (List ManifestEntry)
  | _, [] => ([], Except.ok [])
  | idx, clip :: rest =>
    if exitCode idx ≠ 0 then ([idx], Except.error runError)
    else
      let entry : ManifestEntry :=
        ⟨"clip_" ++ pad2 (idx : ℤ) ++ ".mp4", pyRound3 clip.start, pyRound3 clip.stop,
          pyRound3 clip.score, w, h⟩
      let res := renderLoop exitCode w h (idx + 1) rest
      (idx :: res.1, res.2.map (entry :: ·))

/-- `render_clips_with_captions` over the clip list (the subtitle-track
construction and file-system effects are outside the model; the encoder is
the `exitCode` oracle).  Enumeration starts at index 1. -/
def render_clips_with_captions (exitCode : ℕ → ℤ) (clips : List ClipWindow)
    (aspect : String) : List ℕ × Except String (List ManifestEntry) :=
  let whf := _aspect_filter aspect
  renderLoop exitCode whf.1 whf.2.1 1 clips

/-- The scoring formula in the words of the spec (claim C2): score =
(count of case-insensitive substring matches against the fixed keyword set,
one point per matching keyword, no cap) plus
`min(wordsPerSecond / 3.0, 1.0)` with
`wordsPerSecond = wordCount / max(0.5, end - start)` and `wordCount` the
number of whitespace-delimited tokens of the text. -/
def scoreSpec (e : Entry) : ℚ :=
  let kwMatches := (KEYWORDS.filter (fun kw => decide (lowerStr kw <:+: lowerStr e.text))).length
  let wordsPerSecond : ℚ := (wordCount e.text.data : ℚ) / max (1/2) (e.stop - e.start)
  (kwMatches : ℚ) + min (wordsPerSecond / 3) 1

end Processing

namespace Processing

/-! ### Helper lemmas -/

theorem overlap_comm {a b : ClipWindow} {f : ℚ} (h : Overlap a b f) : Overlap b a f := by
  unfold Overlap at h ⊢
  rw [min_comm b.stop, max_comm b.start, min_comm (b.stop - b.start)]
  exact h

theorem overlap_self (a : ClipWindow) : Overlap a a (1/2) := by
  unfold Overlap
  rw [min_self, min_self, max_self]
  rcases le_or_lt (a.stop - a.start) 0 with h | h
  · have h2 : (1:ℚ)/2 * (a.stop - a.start) ≤ 0 := by linarith
    linarith [le_max_left (0:ℚ) (a.stop - a.start)]
  · have h2 : (1:ℚ)/2 * (a.stop - a.start) ≤ a.stop - a.start := by linarith
    linarith [le_max_right (0:ℚ) (a.stop - a.start)]

theorem overlap_of_degenerate {a : ClipWindow} (b : ClipWindow) (h : a.start = a.stop) :
    Overlap a b (1/2) := by
  unfold Overlap
  have h0 : a.stop - a.start = 0 := by rw [h]; ring
  have hmin : min (a.stop - a.start) (b.stop - b.start) ≤ 0 := by
    rw [h0]; exact min_le_left _ _
  have : (1:ℚ)/2 * min (a.stop - a.start) (b.stop - b.start) ≤ 0 := by linarith
  linarith [le_max_left (0:ℚ) (min a.stop b.stop - max a.start b.start)]

theorem chop_length_le (d L : ℚ) : ∀ (m : ℕ) (t : ℚ), (chop d L m t).length ≤ m := by
  intro m
  induction m with
  | zero => intro t; simp [chop]
  | succ n ih =>
    intro t
    unfold chop
    split
    · simpa using Nat.succ_le_succ (ih (t + L))
    · simp

theorem chop_mem_pos {d L : ℚ} (hL : 0 < L) :
    ∀ {m : ℕ} {t : ℚ} {w : ClipWindow}, w ∈ chop d L m t → w.start < w.stop ∧ w.stop ≤ d := by
  intro m
  induction m with
  | zero => intro t w hw; simp [chop] at hw
  | succ n ih =>
    intro t w hw
    unfold chop at hw
    split at hw
    · next ht =>
      rcases List.mem_cons.mp hw with rfl | hw
      · exact ⟨lt_min (by linarith) ht, min_le_right _ _⟩
      · exact ih hw
    · simp at hw

theorem chop_mem_nonneg {d L : ℚ} (hL : 0 ≤ L) :
    ∀ {m : ℕ} {t : ℚ}, 0 ≤ t → ∀ {w : ClipWindow}, w ∈ chop d L m t → 0 ≤ w.start := by
  intro m
  induction m with
  | zero => intro t _ w hw; simp [chop] at hw
  | succ n ih =>
    intro t ht w hw
    unfold chop at hw
    split at hw
    · rcases List.mem_cons.mp hw with rfl | hw
      · exact ht
      · exact ih (by linarith) hw
    · simp at hw

theorem chop_start_ge {d L : ℚ} (hL : 0 ≤ L) :
    ∀ {m : ℕ} {t : ℚ} {w : ClipWindow}, w ∈ chop d L m t → t ≤ w.start := by
  intro m
  induction m with
  | zero => intro t w hw; simp [chop] at hw
  | succ n ih =>
    intro t w hw
    unfold chop at hw
    split at hw
    · rcases List.mem_cons.mp hw with rfl | hw
      · exact le_refl _
      · linarith [ih hw]
    · simp at hw

theorem chop_score_eq {d L : ℚ} :
    ∀ {m : ℕ} {t : ℚ} {w : ClipWindow}, w ∈ chop d L m t → w.score = 1/10 := by
  intro m
  induction m with
  | zero => intro t w hw; simp [chop] at hw
  | succ n ih =>
    intro t w hw
    unfold chop at hw
    split at hw
    · rcases List.mem_cons.mp hw with rfl | hw
      · rfl
      · exact ih hw
    · simp at hw

theorem chop_pairwise {d L : ℚ} (hL : 0 < L) :
    ∀ (m : ℕ) (t : ℚ), List.Pairwise (fun a b => ¬ Overlap a b (1/2)) (chop d L m t) := by
  intro m
  induction m with
  | zero => intro t; simp [chop]
  | succ n ih =>
    intro t
    unfold chop
    split
    · next ht =>
      refine List.Pairwise.cons ?_ (ih (t + L))
      intro w hw hov
      have hwpos := (chop_mem_pos hL hw).1
      have hwge : t + L ≤ w.start := chop_start_ge (le_of_lt hL) hw
      unfold Overlap at hov
      have hstop : min (t + L) d ≤ w.start := le_trans (min_le_left _ _) hwge
      have hinter : min (min (t + L) d) w.stop - max t w.start ≤ 0 := by
        have h1 : min (min (t + L) d) w.stop ≤ min (t + L) d := min_le_left _ _
        have h2 : w.start ≤ max t w.start := le_max_right _ _
        linarith
      rw [max_eq_left hinter] at hov
      have hmin : 0 < min (min (t + L) d - t) (w.stop - w.start) :=
        lt_min (by simp [lt_min (by linarith : t < t + L) ht]) (by linarith)
      linarith
    · simp

theorem pickAux_length_le (M : ℕ) :
    ∀ (ws picked : List ClipWindow), picked.length ≤ M →
      (pickAux M picked ws).length ≤ M := by
  intro ws
  induction ws with
  | nil => intro picked h; simpa [pickAux] using h
  | cons w ws ih =>
    intro picked h
    unfold pickAux
    by_cases hM : M ≤ picked.length
    · simpa [hM] using h
    · rw [if_neg hM]
      by_cases hall : ∀ p ∈ picked, ¬ Overlap w p (1/2)
      · rw [if_pos hall]
        exact ih _ (by simpa using Nat.succ_le_of_lt (lt_of_not_le hM))
      · rw [if_neg hall]
        exact ih _ h

theorem pickAux_mem {M : ℕ} :
    ∀ {ws picked : List ClipWindow} {x : ClipWindow},
      x ∈ pickAux M picked ws → x ∈ picked ∨ x ∈ ws := by
  intro ws
  induction ws with
  | nil => intro picked x hx; left; simpa [pickAux] using hx
  | cons w ws ih =>
    intro picked x hx
    unfold pickAux at hx
    by_cases hM : M ≤ picked.length
    · rw [if_pos hM] at hx; exact Or.inl hx
    · rw [if_neg hM] at hx
      by_cases hall : ∀ p ∈ picked, ¬ Overlap w p (1/2)
      · rw [if_pos hall] at hx
        rcases ih hx with h | h
        · rcases List.mem_append.mp h with h | h
          · exact Or.inl h
          · exact Or.inr (List.mem_cons.mpr (Or.inl (by simpa using h)))
        · exact Or.inr (List.mem_cons.mpr (Or.inr h))
      · rw [if_neg hall] at hx
        rcases ih hx with h | h
        · exact Or.inl h
        · exact Or.inr (List.mem_cons.mpr (Or.inr h))

theorem pickAux_pairwise {M : ℕ} :
    ∀ {ws picked : List ClipWindow},
      List.Pairwise (fun a b => ¬ Overlap a b (1/2)) picked →
      List.Pairwise (fun a b => ¬ Overlap a b (1/2)) (pickAux M picked ws) := by
  intro ws
  induction ws with
  | nil => intro picked h; simpa [pickAux] using h
  | cons w ws ih =>
    intro picked h
    unfold pickAux
    by_cases hM : M ≤ picked.length
    · simpa [hM] using h
    · rw [if_neg hM]
      by_cases hall : ∀ p ∈ picked, ¬ Overlap w p (1/2)
      · rw [if_pos hall]
        refine ih (List.pairwise_append.mpr ⟨h, List.pairwise_singleton _ _, ?_⟩)
        intro a ha b hb
        rcases List.mem_singleton.mp hb with rfl
        exact fun hov => hall a ha (overlap_comm hov)
      · rw [if_neg hall]
        exact ih h

theorem pickAux_eq_append {M : ℕ} :
    ∀ {ws picked : List ClipWindow},
      List.Pairwise (fun a b => ¬ Overlap a b (1/2)) (picked ++ ws) →
      picked.length + ws.length ≤ M →
      pickAux M picked ws = picked ++ ws := by
  intro ws
  induction ws with
  | nil => intro picked _ _; simp [pickAux]
  | cons w ws ih =>
    intro picked hpw hlen
    unfold pickAux
    have hM : ¬ M ≤ picked.length := by
      simp only [List.length_cons] at hlen; omega
    rw [if_neg hM]
    have hall : ∀ p ∈ picked, ¬ Overlap w p (1/2) := by
      intro p hp hov
      have := (List.pairwise_append.mp hpw).2.2 p hp w (List.mem_cons_self _ _)
      exact this (overlap_comm hov)
    rw [if_pos hall]
    have heq : picked ++ [w] ++ ws = picked ++ w :: ws := by
      rw [List.append_assoc, List.singleton_append]
    have hlen2 : (picked ++ [w]).length + ws.length ≤ M := by
      simp only [List.length_append, List.length_cons, List.length_nil] at *
      omega
    have hpw2 : List.Pairwise (fun a b => ¬ Overlap a b (1/2)) (picked ++ [w] ++ ws) := by
      rw [heq]; exact hpw
    rw [ih hpw2 hlen2, heq]

theorem pickAux_const {M : ℕ} {c : ClipWindow} :
    ∀ {ws : List ClipWindow}, (∀ x ∈ ws, x = c) → pickAux M [c] ws = [c] := by
  intro ws
  induction ws with
  | nil => intro _; simp [pickAux]
  | cons w ws ih =>
    intro h
    unfold pickAux
    by_cases hM : M ≤ 1
    · simp [hM]
    · rw [if_neg (by simpa using hM)]
      have hc : w = c := h w (List.mem_cons_self _ _)
      have hov : ¬ ∀ p ∈ [c], ¬ Overlap w p (1/2) := by
        intro hall
        exact hall c (List.mem_singleton.mpr rfl) (hc ▸ overlap_self c)
      rw [if_neg hov]
      exact ih fun x hx => h x (List.mem_cons_of_mem _ hx)

theorem sortByScore_perm (ws : List ClipWindow) : (sortByScore ws).Perm ws :=
  List.mergeSort_perm ws _

theorem seedBounds_bounds {d L : ℚ} (hd : 0 < d) (hL : 0 < L) (a b : ℚ) :
    0 ≤ (seedBounds d L a b).1 ∧ (seedBounds d L a b).1 < (seedBounds d L a b).2 ∧
      (seedBounds d L a b).2 ≤ d := by
  simp only [seedBounds]
  split_ifs with h
  · refine ⟨le_max_left _ _, ?_, le_refl d⟩
    exact max_lt hd (by linarith)
  · refine ⟨le_max_left _ _, by linarith, by linarith [not_lt.mp h]⟩

theorem find_highlights_eq_pick {entries : List Entry} {d L : ℚ} {M : ℕ}
    (he : entries ≠ []) :
    find_highlights entries d L M =
      pickAux M [] (sortByScore
        (if seedsOf entries d L = [] then chop d L M 0 else seedsOf entries d L)) := by
  unfold find_highlights
  rw [if_neg he]

theorem seedsOf_mem {entries : List Entry} {d L : ℚ} {w : ClipWindow}
    (hw : w ∈ seedsOf entries d L) :
    ∃ e ∈ entries, w = seedWindow (scoredOf entries) d L e := by
  rcases List.mem_map.mp hw with ⟨p, hp, rfl⟩
  have hp2 := List.mem_of_mem_filter hp
  rcases List.mem_map.mp hp2 with ⟨e, he2, rfl⟩
  exact ⟨e, he2, rfl⟩

theorem find_highlights_mem {entries : List Entry} {d L : ℚ} {M : ℕ} {w : ClipWindow}
    (hw : w ∈ find_highlights entries d L M) :
    w ∈ chop d L M 0 ∨
      ∃ e ∈ entries, w = seedWindow (scoredOf entries) d L e := by
  by_cases he : entries = []
  · unfold find_highlights at hw
    rw [if_pos he] at hw
    exact Or.inl hw
  · rw [find_highlights_eq_pick he] at hw
    rcases pickAux_mem hw with hx | hx
    · simp at hx
    · have hx2 := (sortByScore_perm _).mem_iff.mp hx
      split at hx2
      · exact Or.inl hx2
      · exact Or.inr (seedsOf_mem hx2)

theorem find_highlights_length_le (entries : List Entry) (d L : ℚ) (M : ℕ) :
    (find_highlights entries d L M).length ≤ M := by
  unfold find_highlights
  by_cases he : entries = []
  · rw [if_pos he]
    exact chop_length_le d L M 0
  · rw [if_neg he]
    exact pickAux_length_le M _ [] (Nat.zero_le M)

theorem sortByScore_of_const {ws : List ClipWindow} {s : ℚ}
    (h : ∀ w ∈ ws, w.score = s) : sortByScore ws = ws := by
  apply List.mergeSort_of_sorted
  apply List.pairwise_of_forall_mem_list
  intro a ha b hb
  simp [h a ha, h b hb]

/-! ### Claims -/

/-- Claim C1: for every list of scored entries, source duration `d > 0`,
target length `L > 0` and max clip count `M ≥ 0`, `find_highlights` returns
at most `M` windows and every returned window `w` satisfies
`0 ≤ w.start < w.stop ≤ d`. -/
theorem find_highlights_count_and_bounds (entries : List Entry) (d L : ℚ) (M : ℕ)
    (hd : 0 < d) (hL : 0 < L) :
    (find_highlights entries d L M).length ≤ M ∧
    ∀ w ∈ find_highlights entries d L M,
      0 ≤ w.start ∧ w.start < w.stop ∧ w.stop ≤ d := by
  refine ⟨find_highlights_length_le entries d L M, ?_⟩
  intro w hw
  rcases find_highlights_mem hw with h | ⟨e, _, rfl⟩
  · exact ⟨chop_mem_nonneg hL.le le_rfl h, (chop_mem_pos hL h).1, (chop_mem_pos hL h).2⟩
  · simpa [seedWindow] using seedBounds_bounds hd hL e.start e.stop

theorem find_highlights_count_and_bounds_witness :
    ((0:ℚ) < 30 ∧ (0:ℚ) < 15) ∧
    ((find_highlights [⟨0, 2, "tip"⟩] 30 15 6).length ≤ 6 ∧
     ∀ w ∈ find_highlights [⟨0, 2, "tip"⟩] 30 15 6,
       0 ≤ w.start ∧ w.start < w.stop ∧ w.stop ≤ 30) :=
  ⟨⟨by norm_num, by norm_num⟩,
    find_highlights_count_and_bounds [⟨0, 2, "tip"⟩] 30 15 6 (by norm_num) (by norm_num)⟩

/-- Claim C4: for every entry with score ≥ 0.5, the seeded candidate window
has width `L` and is centered on the entry midpoint `(start+stop)/2` clamped
at the left to 0; if its right edge exceeds the duration, the window is
shifted left preserving width `L`, unless that would push the left edge
below 0, in which case the candidate is clamped to `[0, min L d]`. -/
theorem seeded_window_shape (e : Entry) (d L : ℚ) (hscore : ¬ scoreEntry e < 1/2) :
    (max 0 ((e.start + e.stop) / 2 - L / 2) + L ≤ d →
      (seedBounds d L e.start e.stop).1 = max 0 ((e.start + e.stop) / 2 - L / 2) ∧
      (seedBounds d L e.start e.stop).2 = (seedBounds d L e.start e.stop).1 + L) ∧
    (d < max 0 ((e.start + e.stop) / 2 - L / 2) + L →
      (L ≤ d → (seedBounds d L e.start e.stop).1 = d - L ∧
               (seedBounds d L e.start e.stop).2 = d) ∧
      (d < L → (seedBounds d L e.start e.stop).1 = 0 ∧
               (seedBounds d L e.start e.stop).2 = min L d)) := by
  constructor
  · intro h
    simp only [seedBounds]
    rw [if_neg (not_lt.mpr h)]
    exact ⟨rfl, rfl⟩
  · intro h
    simp only [seedBounds]
    rw [if_pos h]
    constructor
    · intro hLd
      exact ⟨max_eq_right (by linarith), rfl⟩
    · intro hdL
      exact ⟨max_eq_left (by linarith), (min_eq_right (le_of_lt hdL)).symm⟩

theorem seeded_window_shape_witness :
    (¬ scoreEntry ⟨10, 20, "tip"⟩ < 1/2) ∧
    (max 0 (((10:ℚ) + 20) / 2 - 15 / 2) + 15 ≤ 100 ∧
      ((seedBounds 100 15 10 20).1 = max 0 (((10:ℚ) + 20) / 2 - 15 / 2) ∧
       (seedBounds 100 15 10 20).2 = (seedBounds 100 15 10 20).1 + 15)) := by
  have hs : ¬ scoreEntry ⟨10, 20, "tip"⟩ < 1/2 := by
    with_unfolding_all decide
  have hedge : max 0 (((10:ℚ) + 20) / 2 - 15 / 2) + 15 ≤ 100 := by
    rw [max_eq_right (by norm_num : (0:ℚ) ≤ (10 + 20) / 2 - 15 / 2)]
    norm_num
  exact ⟨hs, hedge,
    (seeded_window_shape ⟨10, 20, "tip"⟩ 100 15 hs).1 hedge⟩

/-- Claim C5: with no parsed entries, or no entry scoring ≥ 0.5,
`find_highlights` returns the sequential chop `[0,L), [L,2L), …` clamped to
`[0, d]` with score 0.1, stopping at the duration or after `M` windows; in
particular with zero entries, `d = 47`, `L = 15`, `M = 6` it returns exactly
the four windows `[0,15), [15,30), [30,45), [45,47)`. -/
theorem find_highlights_fallback (entries : List Entry) (d L : ℚ) (M : ℕ) (hL : 0 < L)
    (h : entries = [] ∨ ∀ e ∈ entries, scoreEntry e < 1/2) :
    find_highlights entries d L M = chop d L M 0 ∧
    find_highlights [] 47 15 6 =
      [⟨0, 15, 1/10⟩, ⟨15, 30, 1/10⟩, ⟨30, 45, 1/10⟩, ⟨45, 47, 1/10⟩] := by
  constructor
  · by_cases he : entries = []
    · unfold find_highlights
      rw [if_pos he]
    · replace h : ∀ e ∈ entries, scoreEntry e < 1/2 := h.resolve_left he
      have hseeds : seedsOf entries d L = [] := by
        unfold seedsOf
        have hf : List.filter (fun p => decide (¬ p.2 < 1/2)) (scoredOf entries) = [] := by
          rw [List.filter_eq_nil_iff]
          intro p hp
          rcases List.mem_map.mp hp with ⟨e, he2, rfl⟩
          simpa using h e he2
        rw [hf, List.map_nil]
      rw [find_highlights_eq_pick he, hseeds, if_pos rfl,
        sortByScore_of_const (fun w hw => chop_score_eq hw)]
      have hp := @chop_pairwise d L hL M 0
      have happ := @pickAux_eq_append M (chop d L M 0) []
        (by simpa using hp) (by simpa using chop_length_le d L M 0)
      simpa using happ
  · with_unfolding_all rfl

theorem find_highlights_fallback_witness :
    find_highlights [] 47 15 6 = chop 47 15 6 0 ∧
    find_highlights [] 47 15 6 =
      [⟨0, 15, 1/10⟩, ⟨15, 30, 1/10⟩, ⟨30, 45, 1/10⟩, ⟨45, 47, 1/10⟩] :=
  find_highlights_fallback [] 47 15 6 (by norm_num) (Or.inl rfl)

/-- Claim C3 as stated is false: with `max_clips = 0` the two identical
candidate windows seeded by two entries with identical midpoints are both
dropped (the greedy pick stops immediately), so neither — not "exactly
one" — appears in the result.  Both entries score ≥ 0.5 and share
midpoint 1. -/
theorem identical_midpoint_exactly_one_cex :
    ((0:ℚ) + 2) / 2 = ((1:ℚ)/2 + 3/2) / 2 ∧
    ¬ scoreEntry ⟨0, 2, "tip"⟩ < 1/2 ∧ ¬ scoreEntry ⟨1/2, 3/2, "tip"⟩ < 1/2 ∧
    find_highlights [⟨0, 2, "tip"⟩, ⟨1/2, 3/2, "tip"⟩] 30 15 0 = [] :=
  ⟨by norm_num, by with_unfolding_all decide, by with_unfolding_all decide,
    by with_unfolding_all rfl⟩

/-- Claim C3 (amended): no two returned windows overlap by ≥ 50% of the
shorter window's duration; and for any two seed entries with identical
midpoints (which yield identical candidate windows) the common candidate
appears AT MOST once in the result (exactly once is not guaranteed: the
greedy pick can drop both, e.g. when `max_clips` is exhausted). -/
theorem no_half_overlap_and_dedup (entries : List Entry) (d L : ℚ) (M : ℕ) (hL : 0 < L) :
    List.Pairwise (fun a b => ¬ Overlap a b (1/2)) (find_highlights entries d L M) ∧
    (∀ e1 e2 : Entry, e1 ∈ entries → e2 ∈ entries →
      e1.start + e1.stop = e2.start + e2.stop →
      ¬ scoreEntry e1 < 1/2 → ¬ scoreEntry e2 < 1/2 →
      (find_highlights entries d L M).count (seedWindow (scoredOf entries) d L e1) ≤ 1) := by
  have hpw : List.Pairwise (fun a b => ¬ Overlap a b (1/2)) (find_highlights entries d L M) := by
    by_cases he : entries = []
    · unfold find_highlights
      rw [if_pos he]
      exact chop_pairwise hL M 0
    · rw [find_highlights_eq_pick he]
      exact pickAux_pairwise List.Pairwise.nil
  refine ⟨hpw, ?_⟩
  intro e1 e2 _ _ _ _ _
  have hnd : (find_highlights entries d L M).Nodup := by
    refine hpw.imp ?_
    intro a b hab heq
    exact hab (heq ▸ overlap_self a)
  exact List.nodup_iff_count_le_one.mp hnd _

theorem no_half_overlap_and_dedup_witness :
    List.Pairwise (fun a b => ¬ Overlap a b (1/2))
      (find_highlights [⟨0, 2, "tip"⟩, ⟨1/2, 3/2, "tip"⟩] 30 15 6) ∧
    (find_highlights [⟨0, 2, "tip"⟩, ⟨1/2, 3/2, "tip"⟩] 30 15 6).count
      (seedWindow (scoredOf [⟨0, 2, "tip"⟩, ⟨1/2, 3/2, "tip"⟩]) 30 15 ⟨0, 2, "tip"⟩) ≤ 1 :=
  ⟨(no_half_overlap_and_dedup [⟨0, 2, "tip"⟩, ⟨1/2, 3/2, "tip"⟩] 30 15 6 (by norm_num)).1,
   (no_half_overlap_and_dedup [⟨0, 2, "tip"⟩, ⟨1/2, 3/2, "tip"⟩] 30 15 6 (by norm_num)).2
     ⟨0, 2, "tip"⟩ ⟨1/2, 3/2, "tip"⟩ (by simp) (by simp) (by norm_num)
     (by with_unfolding_all decide) (by with_unfolding_all decide)⟩

/-- Claim C10: with a probed duration of 0 (probe failure) and at least one
entry scoring ≥ 0.5, `find_highlights` returns exactly one window, and it is
degenerate with `start = stop = 0` (every seeded candidate is clamped to
`[0,0]`); moreover the overlap test counts any pair involving a zero-width
window as overlapping, which is what makes the greedy pick reject every
candidate after the first. -/
theorem zero_duration_degenerate (entries : List Entry) (L : ℚ) (M : ℕ)
    (hL : 0 < L) (hM : 1 ≤ M) (h : ∃ e ∈ entries, ¬ scoreEntry e < 1/2) :
    (∃ s, find_highlights entries 0 L M = [⟨0, 0, s⟩]) ∧
    ∀ a b : ClipWindow, a.start = a.stop → Overlap a b (1/2) := by
  refine ⟨?_, fun a b hab => overlap_of_degenerate b hab⟩
  obtain ⟨e0, he0, hs0⟩ := h
  have he : entries ≠ [] := by
    rintro rfl
    simp at he0
  have hseed_eq : ∀ w ∈ seedsOf entries 0 L, w = ⟨0, 0, winScore (scoredOf entries) 0 0⟩ := by
    intro w hw
    rcases seedsOf_mem hw with ⟨e, _, rfl⟩
    have hb : seedBounds 0 L e.start e.stop = (0, 0) := by
      simp only [seedBounds]
      rw [if_pos (by linarith [le_max_left (0:ℚ) ((e.start + e.stop) / 2 - L / 2)])]
      rw [zero_sub, max_eq_left (by linarith : -L ≤ (0:ℚ))]
    unfold seedWindow
    rw [hb]
  have hmem0 : seedWindow (scoredOf entries) 0 L e0 ∈ seedsOf entries 0 L :=
    List.mem_map.mpr ⟨(e0, scoreEntry e0),
      List.mem_filter.mpr ⟨List.mem_map.mpr ⟨e0, he0, rfl⟩, by simpa using hs0⟩, rfl⟩
  have hne : seedsOf entries 0 L ≠ [] := by
    intro hnil
    rw [hnil] at hmem0
    simp at hmem0
  rw [find_highlights_eq_pick he, if_neg hne]
  have hsort_mem : ∀ w ∈ sortByScore (seedsOf entries 0 L),
      w = ⟨0, 0, winScore (scoredOf entries) 0 0⟩ :=
    fun w hw => hseed_eq w ((sortByScore_perm _).mem_iff.mp hw)
  have hsort_ne : sortByScore (seedsOf entries 0 L) ≠ [] := by
    intro hnil
    have hlen := (sortByScore_perm (seedsOf entries 0 L)).length_eq
    rw [hnil] at hlen
    exact hne (List.eq_nil_of_length_eq_zero hlen.symm)
  obtain ⟨c0, rest, hcr⟩ := List.exists_cons_of_ne_nil hsort_ne
  have hc0 : c0 = ⟨0, 0, winScore (scoredOf entries) 0 0⟩ :=
    hsort_mem c0 (hcr ▸ List.mem_cons_self _ _)
  refine ⟨winScore (scoredOf entries) 0 0, ?_⟩
  rw [hcr, hc0]
  unfold pickAux
  rw [if_neg (by simp; omega), if_pos (fun p hp => absurd hp (List.not_mem_nil p))]
  exact pickAux_const fun x hx =>
    hsort_mem x (hcr ▸ List.mem_cons_of_mem _ hx)

theorem zero_duration_degenerate_witness :
    (∃ s, find_highlights [⟨0, 2, "tip"⟩] 0 15 6 = [⟨0, 0, s⟩]) ∧
    ∀ a b : ClipWindow, a.start = a.stop → Overlap a b (1/2) :=
  zero_duration_degenerate [⟨0, 2, "tip"⟩] 15 6 (by norm_num) (by norm_num)
    ⟨⟨0, 2, "tip"⟩, by simp, by with_unfolding_all decide⟩

theorem renderLoop_fail (exitCode : ℕ → ℤ) (w h : ℕ) :
    ∀ (clips : List ClipWindow) (start i : ℕ), i < clips.length →
      (∀ j, j < i → exitCode (start + j) = 0) → exitCode (start + i) ≠ 0 →
      renderLoop exitCode w h start clips = (List.range' start (i + 1), Except.error runError) := by
  intro clips
  induction clips with
  | nil =>
    intro start i hi
    simp at hi
  | cons c cs ih =>
    intro start i hi hok hfail
    unfold renderLoop
    cases i with
    | zero =>
      rw [if_pos (by simpa using hfail)]
      simp [List.range']
    | succ n =>
      have h0 : exitCode start = 0 := by simpa using hok 0 (Nat.succ_pos n)
      rw [if_neg (by simpa using h0)]
      have hrec := ih (start + 1) n (by simpa using Nat.lt_of_succ_lt_succ hi)
        (fun j hj => by
          have := hok (j + 1) (Nat.succ_lt_succ hj)
          rwa [show start + (j + 1) = start + 1 + j by omega] at this)
        (by
          have heq : start + (n + 1) = start + 1 + n := by omega
          rwa [heq] at hfail)
      simp only [hrec, Except.map, List.range'_succ]

/-- Claim C9: if the encoder exits non-zero on any clip, the whole render
batch fails: the loop raises, invokes the encoder on no further clip, and
returns no manifest — in particular no partial manifest for the clips that
had already completed. -/
theorem render_clips_fail_fast (exitCode : ℕ → ℤ) (clips : List ClipWindow)
    (aspect : String) (i : ℕ) (hi : i < clips.length)
    (hok : ∀ j, j < i → exitCode (j + 1) = 0)
    (hfail : exitCode (i + 1) ≠ 0) :
    (render_clips_with_captions exitCode clips aspect).1 = List.range' 1 (i + 1) ∧
    (render_clips_with_captions exitCode clips aspect).2 = Except.error runError := by
  have hmain := renderLoop_fail exitCode (_aspect_filter aspect).1 (_aspect_filter aspect).2.1
    clips 1 i hi
    (fun j hj => by
      have := hok j hj
      rwa [show (1:ℕ) + j = j + 1 by omega])
    (by rwa [show (1:ℕ) + i = i + 1 by omega])
  unfold render_clips_with_captions
  rw [hmain]
  exact ⟨rfl, rfl⟩

theorem render_clips_fail_fast_witness :
    ((1:ℕ) < 3 ∧
      ((fun j => if j = 2 then (1:ℤ) else 0) 2 ≠ 0)) ∧
    ((render_clips_with_captions (fun j => if j = 2 then (1:ℤ) else 0)
        [⟨0, 1, 1⟩, ⟨1, 2, 1⟩, ⟨2, 3, 1⟩] "9:16").1 = List.range' 1 2 ∧
     (render_clips_with_captions (fun j => if j = 2 then (1:ℤ) else 0)
        [⟨0, 1, 1⟩, ⟨1, 2, 1⟩, ⟨2, 3, 1⟩] "9:16").2 = Except.error runError) :=
  ⟨⟨by norm_num, by norm_num⟩,
    render_clips_fail_fast (fun j => if j = 2 then (1:ℤ) else 0)
      [⟨0, 1, 1⟩, ⟨1, 2, 1⟩, ⟨2, 3, 1⟩] "9:16" 1 (by norm_num)
      (fun j hj => by interval_cases j <;> norm_num) (by norm_num)⟩

theorem floor_floor_div (q : ℚ) (n : ℤ) (hn : 0 < n) :
    ⌊((⌊q⌋ : ℚ)) / n⌋ = ⌊q / n⌋ := by
  have hnq : (0:ℚ) < n := by exact_mod_cast hn
  have key : ∀ z : ℤ, (z ≤ ⌊((⌊q⌋ : ℚ)) / n⌋ ↔ z ≤ ⌊q / n⌋) := by
    intro z
    rw [Int.le_floor, Int.le_floor, le_div_iff hnq, le_div_iff hnq,
      show ((z:ℚ) * (n:ℚ)) = ((z * n : ℤ) : ℚ) by push_cast; ring,
      Int.cast_le, Int.le_floor]
  have h1 := (key ⌊q / n⌋).mpr le_rfl
  have h2 := (key ⌊((⌊q⌋ : ℚ)) / n⌋).mp le_rfl
  omega

theorem trunc100_floor_div (q : ℚ) (n : ℤ) (hn : 0 < n) :
    ⌊((⌊q * 100⌋ : ℚ) / 100) / n⌋ = ⌊q / n⌋ := by
  have h1 : ((⌊q * 100⌋ : ℚ) / 100) / n = (⌊q * 100⌋ : ℚ) / ((100 * n : ℤ) : ℚ) := by
    push_cast
    rw [div_div]
  have h2 : (q * 100) / ((100 * n : ℤ) : ℚ) = q / n := by
    have hn0 : (n:ℚ) ≠ 0 := by exact_mod_cast hn.ne.symm
    push_cast
    field_simp
    ring
  rw [h1, floor_floor_div (q * 100) (100 * n) (by positivity), h2]

theorem trunc100_floor (q : ℚ) : ⌊((⌊q * 100⌋ : ℚ) / 100)⌋ = ⌊q⌋ := by
  have := trunc100_floor_div q 1 one_pos
  simpa using this

theorem trunc100_shift (q : ℚ) (k : ℤ) :
    (⌊q * 100⌋ : ℚ) / 100 - k = (⌊(q - k) * 100⌋ : ℚ) / 100 := by
  have h : (q - k) * 100 = q * 100 - (100 * k : ℤ) := by push_cast; ring
  rw [h, Int.floor_sub_int]
  push_cast
  ring

/-- Claim C7: the subtitle-track timestamp is `H:MM:SS.cc` with the
centisecond field obtained by truncation, not rounding: formatting `t` and
formatting `t` truncated to whole centiseconds (`⌊100t⌋/100`) give the same
string, and `125.456` seconds formats to `"0:02:05.45"`. -/
theorem ass_time_truncation (t : ℚ) (ht : 0 ≤ t) :
    to_ass_time t = to_ass_time ((⌊t * 100⌋ : ℚ) / 100) ∧
    to_ass_time (125456/1000) = "0:02:05.45" := by
  constructor
  · have h3600 : ⌊((⌊t * 100⌋ : ℚ) / 100) / 3600⌋ = ⌊t / 3600⌋ :=
      trunc100_floor_div t 3600 (by norm_num)
    have h60 : ⌊((⌊t * 100⌋ : ℚ) / 100) / 60⌋ = ⌊t / 60⌋ :=
      trunc100_floor_div t 60 (by norm_num)
    have hfl : ⌊((⌊t * 100⌋ : ℚ) / 100)⌋ = ⌊t⌋ := trunc100_floor t
    have hshift3600 : (⌊t * 100⌋ : ℚ) / 100 - 3600 * ⌊t / 3600⌋ =
        (⌊(t - 3600 * ⌊t / 3600⌋) * 100⌋ : ℚ) / 100 := by
      have := trunc100_shift t (3600 * ⌊t / 3600⌋)
      push_cast at this ⊢
      linarith
    have hm : ⌊((⌊t * 100⌋ : ℚ) / 100 - 3600 * ⌊t / 3600⌋) / 60⌋ =
        ⌊(t - 3600 * ⌊t / 3600⌋) / 60⌋ := by
      rw [hshift3600]
      exact_mod_cast trunc100_floor_div (t - 3600 * ⌊t / 3600⌋) 60 (by norm_num)
    have hshift60 : (⌊t * 100⌋ : ℚ) / 100 - 60 * ⌊t / 60⌋ =
        (⌊(t - 60 * ⌊t / 60⌋) * 100⌋ : ℚ) / 100 := by
      have := trunc100_shift t (60 * ⌊t / 60⌋)
      push_cast at this ⊢
      linarith
    have hs : ⌊(⌊t * 100⌋ : ℚ) / 100 - 60 * ⌊t / 60⌋⌋ = ⌊t - 60 * ⌊t / 60⌋⌋ := by
      rw [hshift60, trunc100_floor]
    have hcs : ⌊((⌊t * 100⌋ : ℚ) / 100 - ⌊t⌋) * 100⌋ = ⌊(t - ⌊t⌋) * 100⌋ := by
      have h1 : ((⌊t * 100⌋ : ℚ) / 100 - ⌊t⌋) * 100 = ((⌊(t - ⌊t⌋) * 100⌋ : ℤ) : ℚ) := by
        rw [trunc100_shift t ⌊t⌋]
        field_simp
      rw [h1, Int.floor_intCast]
    simp only [to_ass_time]
    rw [h3600, h60, hfl, hm, hs, hcs]
  · with_unfolding_all rfl

theorem ass_time_truncation_witness :
    (0:ℚ) ≤ 125456/1000 ∧
    to_ass_time (125456/1000) = to_ass_time ((⌊(125456/1000 : ℚ) * 100⌋ : ℚ) / 100) :=
  ⟨by norm_num, (ass_time_truncation (125456/1000) (by norm_num)).1⟩

theorem splitOnChar_of_not_mem {sep : Char} :
    ∀ {a : List Char}, sep ∉ a → splitOnChar sep a = [a] := by
  intro a
  induction a with
  | nil => intro _; rfl
  | cons c cs ih =>
    intro h
    have hc : ¬ c = sep := fun heq => h (heq ▸ List.mem_cons_self c cs)
    unfold splitOnChar
    rw [ih (fun hm => h (List.mem_cons_of_mem c hm)), if_neg hc]

theorem splitOnChar_append {sep : Char} :
    ∀ {a : List Char} (b : List Char), sep ∉ a →
      splitOnChar sep (a ++ sep :: b) = a :: splitOnChar sep b := by
  intro a
  induction a with
  | nil =>
    intro b _
    show splitOnChar sep (sep :: b) = [] :: splitOnChar sep b
    simp [splitOnChar]
  | cons c cs ih =>
    intro b h
    have hc : ¬ c = sep := fun heq => h (heq ▸ List.mem_cons_self c cs)
    show splitOnChar sep (c :: (cs ++ sep :: b)) = (c :: cs) :: splitOnChar sep b
    simp only [splitOnChar]
    rw [ih b (fun hm => h (List.mem_cons_of_mem c hm))]
    simp [hc]

/-- Claim C8: the transcript timestamp `H:MM:SS,mmm` is converted to
`H*3600 + M*60 + S + ms/1000` seconds with exact rational arithmetic, where
`H, M, S, ms` are the numeric values of the four digit fields. -/
theorem srt_time_to_sec_exact (hd md sd msd : List Char)
    (h1 : ∀ c ∈ hd, c.isDigit) (h2 : ∀ c ∈ md, c.isDigit)
    (h3 : ∀ c ∈ sd, c.isDigit) (h4 : ∀ c ∈ msd, c.isDigit) :
    _srt_time_to_sec (String.mk (hd ++ ':' :: (md ++ ':' :: (sd ++ ',' :: msd)))) =
      some ((parseDigits hd : ℚ) * 3600 + (parseDigits md : ℚ) * 60 +
        (parseDigits sd : ℚ) + (parseDigits msd : ℚ) / 1000) := by
  have hdig_ne : ∀ (c : Char), c.isDigit → c ≠ ':' ∧ c ≠ ',' := by
    intro c hc
    constructor
    · rintro rfl
      exact absurd hc (by decide)
    · rintro rfl
      exact absurd hc (by decide)
  have hno1 : ':' ∉ hd := fun hm => (hdig_ne _ (h1 _ hm)).1 rfl
  have hmd : ':' ∉ md := fun hm => (hdig_ne _ (h2 _ hm)).1 rfl
  have hrest : ':' ∉ sd ++ ',' :: msd := by
    intro hm
    rcases List.mem_append.mp hm with hm | hm
    · exact (hdig_ne _ (h3 _ hm)).1 rfl
    · rcases List.mem_cons.mp hm with heq | hm
      · exact absurd heq (by decide)
      · exact (hdig_ne _ (h4 _ hm)).1 rfl
  have hsd : ',' ∉ sd := fun hm => (hdig_ne _ (h3 _ hm)).2 rfl
  have hmsd : ',' ∉ msd := fun hm => (hdig_ne _ (h4 _ hm)).2 rfl
  unfold _srt_time_to_sec
  show (match splitOnChar ':' (hd ++ ':' :: (md ++ ':' :: (sd ++ ',' :: msd))) with
    | [h, m, rest] =>
      match splitOnChar ',' rest with
      | [s, ms] =>
        some ((parseDigits h : ℚ) * 3600 + (parseDigits m : ℚ) * 60 +
          (parseDigits s : ℚ) + (parseDigits ms : ℚ) / 1000)
      | _ => none
    | _ => none) = _
  rw [splitOnChar_append _ hno1, splitOnChar_append _ hmd, splitOnChar_of_not_mem hrest]
  show (match splitOnChar ',' (sd ++ ',' :: msd) with
    | [s, ms] =>
      some ((parseDigits hd : ℚ) * 3600 + (parseDigits md : ℚ) * 60 +
        (parseDigits s : ℚ) + (parseDigits ms : ℚ) / 1000)
    | _ => none) = _
  rw [splitOnChar_append _ hsd, splitOnChar_of_not_mem hmsd]

theorem srt_time_to_sec_exact_witness :
    _srt_time_to_sec (String.mk
      (['0', '0'] ++ ':' :: (['0', '1'] ++ ':' :: (['0', '2'] ++ ',' :: ['5', '0', '0'])))) =
      some (125/2) := by
  have h := srt_time_to_sec_exact ['0', '0'] ['0', '1'] ['0', '2'] ['5', '0', '0']
    (by decide) (by decide) (by decide) (by decide)
  rw [h]
  with_unfolding_all rfl

theorem aux_ws (n : ℕ) (h1 : 65 ≤ n) (h2 : n ≤ 90) :
    (Char.ofNat (n + 32)).isWhitespace = false ∧ (Char.ofNat n).isWhitespace = false := by
  interval_cases n <;> exact ⟨by decide, by decide⟩

theorem isWhitespace_toLower (c : Char) : (Char.toLower c).isWhitespace = c.isWhitespace := by
  unfold Char.toLower
  by_cases h : c.toNat ≥ 65 ∧ c.toNat ≤ 90
  · rw [if_pos h]
    have ha := aux_ws c.toNat h.1 h.2
    rw [ha.1, ← Char.ofNat_toNat c, ha.2]
  · rw [if_neg h]

theorem countTokensAux_map_toLower (l : List Char) :
    ∀ (b : Bool), countTokensAux b (l.map Char.toLower) = countTokensAux b l := by
  induction l with
  | nil => intro b; rfl
  | cons c cs ih =>
    intro b
    simp only [List.map_cons, countTokensAux, isWhitespace_toLower, ih]

theorem keywords_lower_fixed : ∀ kw ∈ KEYWORDS, lowerStr kw = kw.data := by decide

/-- Claim C2: for every transcript entry (such entries always have at least
one whitespace-delimited token), the score computed by the scoring loop
equals the spec formula `scoreSpec`: one point per keyword of the fixed set
matching case-insensitively as a substring, plus
`min(wordsPerSecond/3, 1)` with `wordsPerSecond = wordCount / max(0.5, end-start)`. -/
theorem scorer_formula (e : Entry) (htok : 1 ≤ wordCount e.text.data) :
    scoreEntry e = scoreSpec e := by
  simp only [scoreEntry, scoreSpec]
  have hkw : keywordHits (lowerStr e.text) =
      (KEYWORDS.filter fun kw => decide (lowerStr kw <:+: lowerStr e.text)).length := by
    unfold keywordHits
    congr 1
  have hwc : wordCount (lowerStr e.text) = wordCount e.text.data := by
    unfold lowerStr wordCount
    exact countTokensAux_map_toLower _ false
  rw [hkw, hwc, max_eq_right htok]

theorem scorer_formula_witness :
    1 ≤ wordCount ("a tip" : String).data ∧
    scoreEntry ⟨0, 2, "a tip"⟩ = scoreSpec ⟨0, 2, "a tip"⟩ :=
  ⟨by decide, scorer_formula ⟨0, 2, "a tip"⟩ (by decide)⟩

theorem countTokensAux_append_sep (y : List Char) :
    ∀ (x : List Char) (b : Bool),
      countTokensAux b (x ++ ' ' :: y) = countTokensAux b x + countTokensAux false y := by
  intro x
  induction x with
  | nil =>
    intro b
    simp [countTokensAux]
  | cons c cs ih =>
    intro b
    by_cases hW : c.isWhitespace
    · simp [countTokensAux, hW, ih]
    · simp [countTokensAux, hW, ih, Nat.add_assoc]

theorem filter_length_mono {α : Type} (p q : α → Bool) :
    ∀ (l : List α), (∀ a ∈ l, p a = true → q a = true) →
      (l.filter p).length ≤ (l.filter q).length := by
  intro l
  induction l with
  | nil => intro _; simp
  | cons a l ih =>
    intro h
    by_cases hp : p a = true
    · rw [List.filter_cons_of_pos hp, List.filter_cons_of_pos (h a (List.mem_cons_self a l) hp)]
      simpa using ih fun x hx => h x (List.mem_cons_of_mem a hx)
    · rw [List.filter_cons_of_neg (by simpa using hp)]
      refine le_trans (ih fun x hx => h x (List.mem_cons_of_mem a hx)) ?_
      cases hq : q a
      · rw [List.filter_cons_of_neg (by simp [hq])]
      · rw [List.filter_cons_of_pos hq]
        exact Nat.le_succ _

/-- Claim C6: the scorer is monotonic in keyword matches: appending one
more exact keyword match (separated by a space) to an entry's text, with
start and stop unchanged, never decreases the entry's score. -/
theorem scorer_monotone (e : Entry) (kw : String) (hkw : kw ∈ KEYWORDS) :
    scoreEntry e ≤ scoreEntry ⟨e.start, e.stop, e.text ++ " " ++ kw⟩ := by
  have hdata : (e.text ++ " " ++ kw).data = e.text.data ++ ' ' :: kw.data := by
    simp [String.data_append]
  have hlow : lowerStr (e.text ++ " " ++ kw) =
      lowerStr e.text ++ ' ' :: lowerStr kw := by
    unfold lowerStr
    rw [hdata, List.map_append, List.map_cons]
    rfl
  unfold scoreEntry
  simp only [hlow]
  have hinfix : ∀ t : List Char, t <:+: lowerStr e.text →
      t <:+: lowerStr e.text ++ ' ' :: lowerStr kw := by
    intro t ht
    exact ht.trans ⟨[], ' ' :: lowerStr kw, by simp⟩
  have hkwcount : keywordHits (lowerStr e.text) ≤
      keywordHits (lowerStr e.text ++ ' ' :: lowerStr kw) := by
    unfold keywordHits
    apply filter_length_mono
    intro k _ hk
    rw [decide_eq_true_iff] at hk ⊢
    exact hinfix k.data hk
  have hwords : max 1 (wordCount (lowerStr e.text)) ≤
      max 1 (wordCount (lowerStr e.text ++ ' ' :: lowerStr kw)) := by
    apply max_le_max le_rfl
    unfold wordCount
    rw [countTokensAux_append_sep]
    exact Nat.le_add_right _ _
  have hD : (0:ℚ) < max (1/2) (e.stop - e.start) :=
    lt_of_lt_of_le (by norm_num) (le_max_left _ _)
  have hpace : ((max 1 (wordCount (lowerStr e.text)) : ℕ) : ℚ) /
        max (1/2) (e.stop - e.start) / 3 ≤
      ((max 1 (wordCount (lowerStr e.text ++ ' ' :: lowerStr kw)) : ℕ) : ℚ) /
        max (1/2) (e.stop - e.start) / 3 := by
    gcongr
  exact add_le_add (by exact_mod_cast hkwcount) (min_le_min hpace le_rfl)

theorem scorer_monotone_witness :
    ("tip" ∈ KEYWORDS) ∧
    scoreEntry ⟨0, 2, "a"⟩ ≤ scoreEntry ⟨0, 2, "a" ++ " " ++ "tip"⟩ :=
  ⟨by decide, scorer_monotone ⟨0, 2, "a"⟩ "tip" (by decide)⟩

end Processing
